import Mathlib

/-!
Verification of the code-generation orchestrator (`tasks/code_gen.py`) and
artifact-cache abstraction (`cache/artifact_cache.py`) of this repository.

The embedding is shallow: targets, languages, cache keys, artifact paths and
error values are natural numbers; Python sets become `Finset Nat`; Python dicts
whose iteration order matters become association lists `List (Nat × _)`;
external collaborators (the graph engine's `walk`, the subclass methods
`is_gentarget`, `genlang`, the cache backend's `try_insert`/`delete`/`has`,
the filesystem's `os.path.exists`) are oracle parameters.  Code that can raise
a Python exception is modelled with `Option`/`Except`, and side effects
(log lines, backend calls, generator invocations, cache writes, graph
mutations) are returned explicitly as traces.
-/

set_option autoImplicit false

namespace ArtifactCache

/-- Severity of a log line emitted by `ArtifactCache.insert`:
`self.log.error(...)` versus `self.log.debug(...)`. -/
inductive Sev where
  | error : Sev
  | debug : Sev
deriving DecidableEq, Repr

/-- A call made by `insert` to the backend operations implemented by
subclasses (`try_insert` and `delete`), recording the exact arguments. -/
inductive CacheCall (κ π : Type) where
  | tryInsert : κ → List π → CacheCall κ π
  | del : κ → CacheCall κ π
deriving DecidableEq, Repr

/-- A cache backend: the subclass-provided operations `try_insert`, `delete`
and `has` of `ArtifactCache` (`artifact_cache.py` lines 52-79).  `σ` is the
backend state, `κ` the cache-key type, `π` the artifact-path type, `ε` the
exception type.  An operation returns `(some e, s)` when it raises exception
`e` leaving the backend in (possibly partially mutated) state `s`, and
`(none, s)` when it returns normally. -/
structure Backend (σ κ π ε : Type) where
  try_insert : κ → List π → σ → Option ε × σ
  delete : κ → σ → Option ε × σ
  has : κ → σ → Bool

/-- Shallow embedding of `ArtifactCache.insert` (`artifact_cache.py` lines
28-50): filter `build_artifacts` by `os.path.exists` (the oracle `onDisk`),
call `try_insert` on the filtered list; on exception log an error and attempt
`delete(cache_key)`; if that also raises, log at debug severity and swallow.
The result is the final backend state, the list of backend calls made, and
the severities of the log lines emitted; the function is total, mirroring
that `insert` never propagates an exception. -/
def insert {σ κ π ε : Type} (b : Backend σ κ π ε) (onDisk : π → Bool)
    (cache_key : κ) (build_artifacts : List π) (s : σ) :
    σ × List (CacheCall κ π) × List Sev :=
  let build_artifacts_that_exist := build_artifacts.filter onDisk
  match b.try_insert cache_key build_artifacts_that_exist s with
  | (none, s1) => (s1, [CacheCall.tryInsert cache_key build_artifacts_that_exist], [])
  | (some _, s1) =>
    match b.delete cache_key s1 with
    | (none, s2) =>
      (s2, [CacheCall.tryInsert cache_key build_artifacts_that_exist, CacheCall.del cache_key],
       [Sev.error])
    | (some _, s2) =>
      (s2, [CacheCall.tryInsert cache_key build_artifacts_that_exist, CacheCall.del cache_key],
       [Sev.error, Sev.debug])

end ArtifactCache

/-- C2: `insert(key, artifacts)` never propagates an error (it is a total
function into states and traces); it filters the artifact list to the paths
that exist on disk and passes exactly that subset to `try_insert` (the first
and only `tryInsert` backend call carries `build_artifacts.filter onDisk`);
if `try_insert` succeeds nothing is logged and no `delete` happens; if
`try_insert` raises, an error is logged and `delete(key)` is attempted; if
that `delete` itself raises, the secondary failure is logged at debug
severity and swallowed, and in every case `insert` returns normally. -/
theorem C2_insert_never_propagates {σ κ π ε : Type} (b : ArtifactCache.Backend σ κ π ε)
    (onDisk : π → Bool) (k : κ) (arts : List π) (s : σ) :
    ((ArtifactCache.insert b onDisk k arts s).2.1.head? =
      some (ArtifactCache.CacheCall.tryInsert k (arts.filter onDisk)))
    ∧ (∀ s1, b.try_insert k (arts.filter onDisk) s = (none, s1) →
        ArtifactCache.insert b onDisk k arts s =
          (s1, [ArtifactCache.CacheCall.tryInsert k (arts.filter onDisk)], []))
    ∧ (∀ e s1 s2, b.try_insert k (arts.filter onDisk) s = (some e, s1) →
        b.delete k s1 = (none, s2) →
        ArtifactCache.insert b onDisk k arts s =
          (s2, [ArtifactCache.CacheCall.tryInsert k (arts.filter onDisk),
                ArtifactCache.CacheCall.del k], [ArtifactCache.Sev.error]))
    ∧ (∀ e s1 e2 s2, b.try_insert k (arts.filter onDisk) s = (some e, s1) →
        b.delete k s1 = (some e2, s2) →
        ArtifactCache.insert b onDisk k arts s =
          (s2, [ArtifactCache.CacheCall.tryInsert k (arts.filter onDisk),
                ArtifactCache.CacheCall.del k],
           [ArtifactCache.Sev.error, ArtifactCache.Sev.debug])) := by
  refine ⟨?_, ?_, ?_, ?_⟩
  · unfold ArtifactCache.insert
    rcases h : b.try_insert k (arts.filter onDisk) s with ⟨e?, s1⟩
    cases e? with
    | none => simp [h]
    | some e =>
      rcases h2 : b.delete k s1 with ⟨e2?, s2⟩
      cases e2? <;> simp [h, h2]
  · intro s1 h
    unfold ArtifactCache.insert
    simp [h]
  · intro e s1 s2 h h2
    unfold ArtifactCache.insert
    simp [h, h2]
  · intro e s1 e2 s2 h h2
    unfold ArtifactCache.insert
    simp [h, h2]

/-- A concrete backend over state `Bool` ("entry for the key readable?") whose
`try_insert` always raises leaving the state unchanged and whose `delete`
always raises: it exercises the double-failure path of `insert`. -/
def failingBackend : ArtifactCache.Backend Bool Nat Nat Nat :=
  { try_insert := fun _ _ s => (some 0, s)
    delete := fun _ s => (some 1, s)
    has := fun _ s => s }

/-- Witness for C2 at a concrete input: with `failingBackend` both
`try_insert` and `delete` raise, and `insert` returns the unchanged state
with the two backend calls and the error-then-debug log trace. -/
theorem C2_insert_never_propagates_witness :
    ArtifactCache.insert failingBackend (fun _ => true) 5 [3] true =
      (true, [ArtifactCache.CacheCall.tryInsert 5 [3], ArtifactCache.CacheCall.del 5],
       [ArtifactCache.Sev.error, ArtifactCache.Sev.debug]) :=
  (C2_insert_never_propagates failingBackend (fun _ => true) 5 [3] true).2.2.2 0 true 1 true
    rfl rfl

/-- Counterexample to C8 as stated: with `failingBackend` and an existing
readable entry for key 0 (state `true`), `try_insert` fails during `insert`,
the best-effort `delete` also fails and is swallowed, and afterwards `has 0`
still returns `true` — a stale entry for the key remains readable, so
"if `try_insert(K)` fails then after `insert` returns `has(K)` is false"
does not hold of the code. -/
theorem C8_counterexample :
    failingBackend.try_insert 0 [] true = (some 0, true)
    ∧ failingBackend.has 0 (ArtifactCache.insert failingBackend (fun _ => true) 0 [] true).1
        = true := by
  constructor
  · rfl
  · rfl

/-- C8 amended: if `try_insert(K)` fails during `insert` and the best-effort
cleanup `delete(K)` succeeds, then — for a backend whose successful `delete`
leaves the key unreadable, as the `delete` contract specifies — `has(K)`
returns false on the state `insert` returns. -/
theorem C8_cleanup_invariant {σ κ π ε : Type} (b : ArtifactCache.Backend σ κ π ε)
    (onDisk : π → Bool) (k : κ) (arts : List π) (s : σ) (e : ε) (s1 s2 : σ)
    (hdel_contract : ∀ t t', b.delete k t = (none, t') → b.has k t' = false)
    (hfail : b.try_insert k (arts.filter onDisk) s = (some e, s1))
    (hdel : b.delete k s1 = (none, s2)) :
    b.has k (ArtifactCache.insert b onDisk k arts s).1 = false := by
  unfold ArtifactCache.insert
  simp only [hfail, hdel]
  exact hdel_contract s1 s2 hdel

/-- A concrete backend whose `try_insert` always raises and whose `delete`
succeeds and clears the entry, conforming to the `delete` contract. -/
def cleanableBackend : ArtifactCache.Backend Bool Nat Nat Nat :=
  { try_insert := fun _ _ _ => (some 0, true)
    delete := fun _ _ => (none, false)
    has := fun _ s => s }

/-- Witness for the amended C8 at a concrete input: with `cleanableBackend`,
`try_insert` fails, `delete` succeeds, and `has` is false afterwards. -/
theorem C8_cleanup_invariant_witness :
    cleanableBackend.has 7 (ArtifactCache.insert cleanableBackend (fun _ => true) 7 [1] true).1
      = false :=
  C8_cleanup_invariant cleanableBackend (fun _ => true) 7 [1] true 0 true false
    (fun _ _ h => by simpa [cleanableBackend] using congrArg Prod.snd h) rfl rfl

namespace CodeGen

/-- Union, over the entries of (a sublist of) the `gentargets_by_dependee`
mapping, of the generation-source nodes reachable from the entry's source
nodes: the set accumulated by `tgt.walk(tgts.add, self.is_gentarget)` over
every popped entry in `find_gentargets` (`code_gen.py` lines 87-91).
`walk` is the graph engine's transitive-closure oracle. -/
def walkUnion (walk : Nat → Finset Nat) : List (Nat × Finset Nat) → Finset Nat
  | [] => ∅
  | (_, ss) :: rest => ss.biUnion walk ∪ walkUnion walk rest

/-- Shallow embedding of `find_gentargets` (`code_gen.py` lines 86-92): scan
the `gentargets_by_dependee` association list; every entry whose dependee
satisfies `pred` is consumed (popped) and its source nodes transitively
walked; the result is the collected set intersected with
`set(gentargets)`, paired with the surviving mapping. -/
def find_gentargets (walk : Nat → Finset Nat) (pred : Nat → Bool) (gentargets : List Nat)
    (m : List (Nat × Finset Nat)) : Finset Nat × List (Nat × Finset Nat) :=
  (walkUnion walk (m.filter (fun p => pred p.1)) ∩ gentargets.toFinset,
   m.filter (fun p => !pred p.1))

/-- Shallow embedding of the language-assignment loop (`code_gen.py` lines
94-96): iterate the capability map in order; a forced language is assigned
the full `gentargets` list without touching the dependee mapping, any other
language is assigned `find_gentargets(predicate)`, which consumes matching
dependee entries.  Returns the ordered per-language assignments
(`gentargets_bylang`) and the final dependee mapping. -/
def assignLangs (forced : Nat → Bool) (walk : Nat → Finset Nat) (gentargets : List Nat) :
    List (Nat × (Nat → Bool)) → List (Nat × Finset Nat) →
    List (Nat × Finset Nat) × List (Nat × Finset Nat)
  | [], m => ([], m)
  | (lang, pred) :: rest, m =>
    if forced lang then
      let r := assignLangs forced walk gentargets rest m
      ((lang, gentargets.toFinset) :: r.1, r.2)
    else
      let fg := find_gentargets walk pred gentargets m
      let r := assignLangs forced walk gentargets rest fg.2
      ((lang, fg.1) :: r.1, r.2)

theorem assignLangs_append (forced : Nat → Bool) (walk : Nat → Finset Nat)
    (gentargets : List Nat) (c1 c2 : List (Nat × (Nat → Bool))) (m : List (Nat × Finset Nat)) :
    assignLangs forced walk gentargets (c1 ++ c2) m =
      ((assignLangs forced walk gentargets c1 m).1 ++
        (assignLangs forced walk gentargets c2 (assignLangs forced walk gentargets c1 m).2).1,
       (assignLangs forced walk gentargets c2 (assignLangs forced walk gentargets c1 m).2).2) := by
  induction c1 generalizing m with
  | nil => simp [assignLangs]
  | cons hd tl ih =>
    rcases hd with ⟨lang, pred⟩
    by_cases hf : forced lang <;> simp [assignLangs, hf, ih]

theorem mem_walkUnion_of_mem (walk : Nat → Finset Nat) (l : List (Nat × Finset Nat))
    (d : Nat) (ss : Finset Nat) (s t : Nat) (hmem : (d, ss) ∈ l) (hs : s ∈ ss)
    (ht : t ∈ walk s) : t ∈ walkUnion walk l := by
  induction l with
  | nil => cases hmem
  | cons hd tl ih =>
    rcases hd with ⟨d0, ss0⟩
    rcases List.mem_cons.mp hmem with h | h
    · injection h with h1 h2
      subst h1; subst h2
      exact Finset.mem_union_left _ (Finset.mem_biUnion.mpr ⟨s, hs, ht⟩)
    · exact Finset.mem_union_right _ (ih h)

/-- Entries never reappear: if a dependee key is absent from the mapping it is
absent from the mapping left after any sequence of language scans. -/
theorem assignLangs_not_mem_of_not_mem (forced : Nat → Bool) (walk : Nat → Finset Nat)
    (gentargets : List Nat) (caps : List (Nat × (Nat → Bool))) (m : List (Nat × Finset Nat))
    (d : Nat) (habs : ∀ ss, (d, ss) ∉ m) :
    ∀ ss, (d, ss) ∉ (assignLangs forced walk gentargets caps m).2 := by
  induction caps generalizing m with
  | nil => simpa [assignLangs] using habs
  | cons hd tl ih =>
    rcases hd with ⟨lang, pred⟩
    by_cases hf : forced lang
    · simpa [assignLangs, hf] using ih m habs
    · simp only [assignLangs, hf, if_false]
      refine ih _ ?_
      intro ss hmem
      exact habs ss (List.mem_of_mem_filter hmem)

end CodeGen

namespace CodeGen

/-- A versioned target set, one element of
`invalidation_check.invalid_vts_partitioned`: the member nodes of the
partition (`vt.targets`). -/
structure VT where
  targets : List Nat
deriving DecidableEq, Repr

/-- An observable event of the invalidation-driven generation loop
(`code_gen.py` lines 103-112): an invocation `genlang(lang, lang_invalid)`
of a language's generator, or a batched cache write
`update_artifact_cache([(vt, artifact_files)])`. -/
inductive Ev where
  | genCall : Nat → Finset Nat → Ev
  | cacheWrite : VT → List Nat → Ev
deriving DecidableEq

/-- The per-language generator oracle `genlang(lang, targets)`
(`code_gen.py` line 110): it may raise (`Except.error`), return `None`
(`some` of `none`) or return a list of artifact paths; the Python call site
reads `self.genlang(lang, lang_invalid) or []`. -/
def GenFun : Type := Nat → Finset Nat → Except Nat (Option (List Nat))

/-- Shallow embedding of the inner language loop for one invalid vt
(`code_gen.py` lines 107-110): for each `(lang, tgts)` of
`gentargets_bylang` in order, intersect the vt's invalid targets with
`tgts`; if non-empty invoke the generator and extend `artifact_files` with
its result (`or []`).  Returns the generator-call events, the accumulated
artifact list, and the exception, if one was raised (at which point the
iteration stops). -/
def genLangsForVt (gen : GenFun) (inv : Finset Nat) :
    List (Nat × Finset Nat) → List Ev × List Nat × Option Nat
  | [] => ([], [], none)
  | (lang, tgts) :: rest =>
    if (inv ∩ tgts).Nonempty then
      match gen lang (inv ∩ tgts) with
      | Except.error e => ([Ev.genCall lang (inv ∩ tgts)], [], some e)
      | Except.ok r =>
        let acc := genLangsForVt gen inv rest
        (Ev.genCall lang (inv ∩ tgts) :: acc.1, r.getD [] ++ acc.2.1, acc.2.2)
    else genLangsForVt gen inv rest

/-- Shallow embedding of the body of the vt loop (`code_gen.py` lines
104-112) for one vt: run the language loop; if it raised, propagate; else
perform the single guarded cache write — only when a cache is configured,
writing to the cache is enabled and at least one artifact was collected. -/
def processVt (cacheConfigured writeEnabled : Bool) (gen : GenFun)
    (bylang : List (Nat × Finset Nat)) (vt : VT) : List Ev × Option Nat :=
  let inv := vt.targets.toFinset
  let r := genLangsForVt gen inv bylang
  match r.2.2 with
  | some e => (r.1, some e)
  | none =>
    (r.1 ++ (if cacheConfigured && writeEnabled && !r.2.1.isEmpty
             then [Ev.cacheWrite vt r.2.1] else []), none)

/-- Shallow embedding of the loop over `invalid_vts_partitioned`
(`code_gen.py` line 104): process each vt in order; an exception raised by a
generator aborts the remaining vts. -/
def runVts (cacheConfigured writeEnabled : Bool) (gen : GenFun)
    (bylang : List (Nat × Finset Nat)) : List VT → List Ev × Option Nat
  | [] => ([], none)
  | vt :: rest =>
    match processVt cacheConfigured writeEnabled gen bylang vt with
    | (evs, none) =>
      let r := runVts cacheConfigured writeEnabled gen bylang rest
      (evs ++ r.1, r.2)
    | (evs, some e) => (evs, some e)

/-- The language loop emits only generator-call events, never cache
writes. -/
theorem genLangsForVt_no_write (gen : GenFun) (inv : Finset Nat)
    (bylang : List (Nat × Finset Nat)) (vt : VT) (arts : List Nat) :
    Ev.cacheWrite vt arts ∉ (genLangsForVt gen inv bylang).1 := by
  induction bylang with
  | nil => simp [genLangsForVt]
  | cons hd tl ih =>
    rcases hd with ⟨lang, tgts⟩
    by_cases hne : (inv ∩ tgts).Nonempty
    · rcases hgen : gen lang (inv ∩ tgts) with e | r
      · simp [genLangsForVt, hne, hgen]
      · simp only [genLangsForVt, hne, if_true, hgen, List.mem_cons]
        rintro (h | h)
        · cases h
        · exact ih h
    · simpa [genLangsForVt, hne] using ih

/-- When no generator raised, the language loop's events are exactly one
generator call per language with a non-empty intersection, in capability
order, carrying exactly the intersected subset. -/
theorem genLangsForVt_events_of_ok (gen : GenFun) (inv : Finset Nat)
    (bylang : List (Nat × Finset Nat)) (hok : (genLangsForVt gen inv bylang).2.2 = none) :
    (genLangsForVt gen inv bylang).1 =
      bylang.filterMap (fun p =>
        if (inv ∩ p.2).Nonempty then some (Ev.genCall p.1 (inv ∩ p.2)) else none) := by
  induction bylang with
  | nil => simp [genLangsForVt]
  | cons hd tl ih =>
    rcases hd with ⟨lang, tgts⟩
    by_cases hne : (inv ∩ tgts).Nonempty
    · rcases hgen : gen lang (inv ∩ tgts) with e | r
      · rw [genLangsForVt, if_pos hne, hgen] at hok
        cases hok
      · rw [genLangsForVt, if_pos hne, hgen] at hok ⊢
        simp only [List.filterMap_cons, hne, if_true]
        exact congrArg _ (ih hok)
    · rw [genLangsForVt, if_neg hne] at hok ⊢
      simp only [List.filterMap_cons, hne, if_false]
      exact ih hok

/-- Splitting the language loop at an error-free initial segment. -/
theorem genLangsForVt_append (gen : GenFun) (inv : Finset Nat)
    (l1 l2 : List (Nat × Finset Nat)) (hok : (genLangsForVt gen inv l1).2.2 = none) :
    genLangsForVt gen inv (l1 ++ l2) =
      ((genLangsForVt gen inv l1).1 ++ (genLangsForVt gen inv l2).1,
       (genLangsForVt gen inv l1).2.1 ++ (genLangsForVt gen inv l2).2.1,
       (genLangsForVt gen inv l2).2.2) := by
  induction l1 with
  | nil => simp [genLangsForVt]
  | cons hd tl ih =>
    rcases hd with ⟨lang, tgts⟩
    by_cases hne : (inv ∩ tgts).Nonempty
    · rcases hgen : gen lang (inv ∩ tgts) with e | r
      · rw [genLangsForVt, if_pos hne, hgen] at hok
        cases hok
      · have hok' : (genLangsForVt gen inv tl).2.2 = none := by
          simpa [genLangsForVt, hne, hgen] using hok
        simp only [List.cons_append, genLangsForVt, hne, if_true, hgen]
        simp [ih hok']
    · rw [genLangsForVt, if_neg hne] at hok
      simpa [genLangsForVt, hne] using ih hok

/-- Splitting the vt loop at an error-free initial segment. -/
theorem runVts_append (cc we : Bool) (gen : GenFun) (bylang : List (Nat × Finset Nat))
    (v1 v2 : List VT) (hok : (runVts cc we gen bylang v1).2 = none) :
    runVts cc we gen bylang (v1 ++ v2) =
      ((runVts cc we gen bylang v1).1 ++ (runVts cc we gen bylang v2).1,
       (runVts cc we gen bylang v2).2) := by
  induction v1 with
  | nil => simp [runVts]
  | cons vt rest ih =>
    rcases hp : processVt cc we gen bylang vt with ⟨evs, err⟩
    cases err with
    | none =>
      have hok' : (runVts cc we gen bylang rest).2 = none := by
        simpa [runVts, hp] using hok
      simp only [List.cons_append, runVts, hp]
      simp [ih hok']
    | some e =>
      rw [runVts] at hok
      rw [hp] at hok
      simp at hok

/-- Boolean recognizer of cache-write events. -/
def isWriteEv : Ev → Bool
  | Ev.cacheWrite _ _ => true
  | Ev.genCall _ _ => false

end CodeGen

/-- C4: for one invalid vt processed with no generator failure, the events
are exactly one generator call per language whose assigned set meets the
vt's members — on exactly the intersected subset, in capability order —
followed by at most one cache write; any cache write is for this vt,
carries the artifacts accumulated over all languages, and happens exactly
when a cache is configured, writing is enabled and the artifact list is
non-empty. -/
theorem C4_generation_loop (cc we : Bool) (gen : CodeGen.GenFun)
    (bylang : List (Nat × Finset Nat)) (vt : CodeGen.VT)
    (hok : (CodeGen.genLangsForVt gen vt.targets.toFinset bylang).2.2 = none) :
    (CodeGen.processVt cc we gen bylang vt).1 =
      bylang.filterMap (fun p =>
        if (vt.targets.toFinset ∩ p.2).Nonempty
        then some (CodeGen.Ev.genCall p.1 (vt.targets.toFinset ∩ p.2)) else none)
      ++ (if cc && we && !(CodeGen.genLangsForVt gen vt.targets.toFinset bylang).2.1.isEmpty
          then [CodeGen.Ev.cacheWrite vt
                 (CodeGen.genLangsForVt gen vt.targets.toFinset bylang).2.1]
          else [])
    ∧ (∀ vt2 arts,
        CodeGen.Ev.cacheWrite vt2 arts ∈ (CodeGen.processVt cc we gen bylang vt).1 →
        vt2 = vt ∧ arts = (CodeGen.genLangsForVt gen vt.targets.toFinset bylang).2.1
          ∧ (cc && we && !arts.isEmpty) = true)
    ∧ (CodeGen.processVt cc we gen bylang vt).1.countP CodeGen.isWriteEv ≤ 1 := by
  have hpv : (CodeGen.processVt cc we gen bylang vt).1 =
      (CodeGen.genLangsForVt gen vt.targets.toFinset bylang).1
      ++ (if cc && we && !(CodeGen.genLangsForVt gen vt.targets.toFinset bylang).2.1.isEmpty
          then [CodeGen.Ev.cacheWrite vt
                 (CodeGen.genLangsForVt gen vt.targets.toFinset bylang).2.1]
          else []) := by
    simp only [CodeGen.processVt, hok]
  refine ⟨?_, ?_, ?_⟩
  · rw [hpv, CodeGen.genLangsForVt_events_of_ok gen _ bylang hok]
  · intro vt2 arts hmem
    rw [hpv] at hmem
    rcases List.mem_append.mp hmem with h | h
    · exact absurd h (CodeGen.genLangsForVt_no_write gen _ bylang vt2 arts)
    · by_cases hcond : (cc && we
          && !(CodeGen.genLangsForVt gen vt.targets.toFinset bylang).2.1.isEmpty) = true
      · rw [if_pos hcond] at h
        rcases List.mem_singleton.mp h with heq
        injection heq with h1 h2
        subst h1; subst h2
        exact ⟨rfl, rfl, hcond⟩
      · rw [if_neg hcond] at h
        cases h
  · rw [hpv, List.countP_append]
    have h0 : (CodeGen.genLangsForVt gen vt.targets.toFinset bylang).1.countP
        CodeGen.isWriteEv = 0 := by
      rw [List.countP_eq_zero]
      intro a ha
      cases a with
      | genCall l s => simp [CodeGen.isWriteEv]
      | cacheWrite v w =>
        exact absurd ha (CodeGen.genLangsForVt_no_write gen _ bylang v w)
    rw [h0]
    by_cases hcond : (cc && we
        && !(CodeGen.genLangsForVt gen vt.targets.toFinset bylang).2.1.isEmpty) = true
    · simp [hcond, CodeGen.isWriteEv]
    · simp [hcond]

/-- Witness for C4 at a concrete input: languages 0 and 1, vt members
`[1, 2]`; only language 0's assigned set meets the vt, its generator returns
artifact `[0]`, and the single batched cache write follows the call. -/
theorem C4_generation_loop_witness :
    (CodeGen.processVt true true (fun l _ => Except.ok (some [l]))
        [(0, {1}), (1, {5})] ⟨[1, 2]⟩).1 =
      [CodeGen.Ev.genCall 0 ({1, 2} ∩ {1}), CodeGen.Ev.cacheWrite ⟨[1, 2]⟩ [0]] := by
  have h := C4_generation_loop true true (fun l _ => Except.ok (some [l]))
    [(0, {1}), (1, {5})] ⟨[1, 2]⟩ (by decide)
  rw [h.1]
  decide

/-- C7: a generator failure is fatal for the generation run: if the vts
before `vt` ran clean and, while processing `vt`, the languages before
`(lang, ts)` ran clean but `lang`'s generator raises `e` on its non-empty
subset, then the whole loop stops with error `e`; its event trace is the
earlier vts' events, then `vt`'s earlier language calls, then the failing
call — so no further language subsets are generated for `vt`, no cache
write occurs for `vt`, nothing is retried, no later vt is processed, and
the events (including cache writes) of earlier vts remain in place as the
unchanged prefix. -/
theorem C7_generator_failure (cc we : Bool) (gen : CodeGen.GenFun)
    (bl1 bl2 : List (Nat × Finset Nat)) (lang : Nat) (ts : Finset Nat)
    (pre post : List CodeGen.VT) (vt : CodeGen.VT) (e : Nat)
    (hpre : (CodeGen.runVts cc we gen (bl1 ++ (lang, ts) :: bl2) pre).2 = none)
    (hbl1 : (CodeGen.genLangsForVt gen vt.targets.toFinset bl1).2.2 = none)
    (hne : (vt.targets.toFinset ∩ ts).Nonempty)
    (hfail : gen lang (vt.targets.toFinset ∩ ts) = Except.error e) :
    CodeGen.runVts cc we gen (bl1 ++ (lang, ts) :: bl2) (pre ++ vt :: post) =
      ((CodeGen.runVts cc we gen (bl1 ++ (lang, ts) :: bl2) pre).1 ++
        ((CodeGen.genLangsForVt gen vt.targets.toFinset bl1).1 ++
          [CodeGen.Ev.genCall lang (vt.targets.toFinset ∩ ts)]), some e)
    ∧ (∀ arts, CodeGen.Ev.cacheWrite vt arts ∉
        (CodeGen.genLangsForVt gen vt.targets.toFinset bl1).1 ++
          [CodeGen.Ev.genCall lang (vt.targets.toFinset ∩ ts)]) := by
  have hhead : CodeGen.genLangsForVt gen vt.targets.toFinset ((lang, ts) :: bl2) =
      ([CodeGen.Ev.genCall lang (vt.targets.toFinset ∩ ts)], [], some e) := by
    rw [CodeGen.genLangsForVt, if_pos hne, hfail]
  have hsplit := CodeGen.genLangsForVt_append gen vt.targets.toFinset bl1
    ((lang, ts) :: bl2) hbl1
  rw [hhead] at hsplit
  have hpv : CodeGen.processVt cc we gen (bl1 ++ (lang, ts) :: bl2) vt =
      ((CodeGen.genLangsForVt gen vt.targets.toFinset bl1).1 ++
        [CodeGen.Ev.genCall lang (vt.targets.toFinset ∩ ts)], some e) := by
    simp only [CodeGen.processVt, hsplit]
  constructor
  · rw [CodeGen.runVts_append cc we gen _ pre (vt :: post) hpre]
    rw [CodeGen.runVts, hpv]
  · intro arts hmem
    rcases List.mem_append.mp hmem with h | h
    · exact absurd h (CodeGen.genLangsForVt_no_write gen _ bl1 vt arts)
    · cases List.mem_singleton.mp h

/-- Witness for C7 at a concrete input: one language whose generator always
raises 3 on the vt's member 1; the run stops with error 3 after recording
only the failing call, and no cache write for the vt occurs. -/
theorem C7_generator_failure_witness :
    CodeGen.runVts true true (fun _ _ => Except.error 3) [(0, {1})] [⟨[1]⟩] =
      ([CodeGen.Ev.genCall 0 ({1} ∩ {1})], some 3) :=
  (C7_generator_failure true true (fun _ _ => Except.error 3) [] [] 0 {1} [] [] ⟨[1]⟩ 3
    rfl rfl (by decide) rfl).1

/-- C3: in the language-assignment loop, a forced language is assigned the
full in-scope generation-source set regardless of reachability, and any other
language L, reached after the earlier capability entries have run, is
assigned `find_gentargets` of L's predicate on the dependee mapping as left
by the earlier languages — in particular every generation-source node `t`
reachable (via `walk`) from a source node of a not-yet-consumed dependee
matching L's predicate lies in L's assigned set. -/
theorem C3_discovery_coverage (forced : Nat → Bool) (walk : Nat → Finset Nat)
    (gentargets : List Nat) (pre post : List (Nat × (Nat → Bool))) (lang : Nat)
    (pred : Nat → Bool) (m : List (Nat × Finset Nat)) :
    (CodeGen.assignLangs forced walk gentargets (pre ++ (lang, pred) :: post) m).1 =
      (CodeGen.assignLangs forced walk gentargets pre m).1 ++
      (lang,
        if forced lang then gentargets.toFinset
        else (CodeGen.find_gentargets walk pred gentargets
               (CodeGen.assignLangs forced walk gentargets pre m).2).1) ::
      (CodeGen.assignLangs forced walk gentargets post
        (if forced lang then (CodeGen.assignLangs forced walk gentargets pre m).2
         else (CodeGen.find_gentargets walk pred gentargets
                (CodeGen.assignLangs forced walk gentargets pre m).2).2)).1
    ∧ (forced lang = false → ∀ d ss s t,
        (d, ss) ∈ (CodeGen.assignLangs forced walk gentargets pre m).2 → pred d = true →
        s ∈ ss → t ∈ walk s → t ∈ gentargets →
        t ∈ (CodeGen.find_gentargets walk pred gentargets
              (CodeGen.assignLangs forced walk gentargets pre m).2).1) := by
  constructor
  · rw [CodeGen.assignLangs_append]
    by_cases hf : forced lang <;> simp [CodeGen.assignLangs, hf]
  · intro hf d ss s t hmem hpred hs ht hgt
    unfold CodeGen.find_gentargets
    refine Finset.mem_inter.mpr ⟨?_, List.mem_toFinset.mpr hgt⟩
    exact CodeGen.mem_walkUnion_of_mem walk _ d ss s t (List.mem_filter.mpr ⟨hmem, hpred⟩) hs ht

/-- Witness for C3 at a concrete input: with one dependee `10` whose source
set is `{1}` and a language whose predicate matches `10`, the node `1`
(reachable from itself) lands in the language's assigned set. -/
theorem C3_discovery_coverage_witness :
    1 ∈ (CodeGen.find_gentargets (fun t => {t}) (fun d => decide (d = 10)) [1, 2]
          (CodeGen.assignLangs (fun _ => false) (fun t => {t}) [1, 2] [] [(10, {1})]).2).1 :=
  (C3_discovery_coverage (fun _ => false) (fun t => {t}) [1, 2] [] [] 3
      (fun d => decide (d = 10)) [(10, {1})]).2 rfl 10 {1} 1 1
    (by simp [CodeGen.assignLangs]) (by decide) (by decide) (by decide) (by decide)

/-- C6: discovery's consumption of dependee entries is destructive — a
dependee matching the scanned language's predicate is absent from the mapping
`find_gentargets` returns — and global across languages: after a non-forced
language's scan, a matched dependee never reappears in the mapping any later
language of the pass receives; and a source node can still be assigned to
several languages via independent unconsumed dependee paths, as the concrete
run in the last conjunct shows (node 1 is assigned to both language 0 and
language 1 through dependees 10 and 11). -/
theorem C6_destructive_consumption :
    (∀ (walk : Nat → Finset Nat) (pred : Nat → Bool) (gentargets : List Nat)
        (m : List (Nat × Finset Nat)) (d : Nat), pred d = true →
        ∀ ss, (d, ss) ∉ (CodeGen.find_gentargets walk pred gentargets m).2)
    ∧ (∀ (forced : Nat → Bool) (walk : Nat → Finset Nat) (gentargets : List Nat)
        (lang : Nat) (pred : Nat → Bool) (rest : List (Nat × (Nat → Bool)))
        (m : List (Nat × Finset Nat)) (d : Nat), forced lang = false → pred d = true →
        ∀ ss, (d, ss) ∉
          (CodeGen.assignLangs forced walk gentargets ((lang, pred) :: rest) m).2)
    ∧ ((CodeGen.assignLangs (fun _ => false) (fun t => {t}) [1]
          [(0, fun d => decide (d = 10)), (1, fun d => decide (d = 11))]
          [(10, {1}), (11, {1})]).1 = [(0, {1}), (1, {1})]) := by
  have h1 : ∀ (walk : Nat → Finset Nat) (pred : Nat → Bool) (gentargets : List Nat)
      (m : List (Nat × Finset Nat)) (d : Nat), pred d = true →
      ∀ ss, (d, ss) ∉ (CodeGen.find_gentargets walk pred gentargets m).2 := by
    intro walk pred gentargets m d hpred ss hmem
    have := (List.mem_filter.mp hmem).2
    simp [hpred] at this
  refine ⟨h1, ?_, by decide⟩
  intro forced walk gentargets lang pred rest m d hf hpred
  simp only [CodeGen.assignLangs, hf, if_false]
  exact CodeGen.assignLangs_not_mem_of_not_mem forced walk gentargets rest _ d
    (h1 walk pred gentargets m d hpred)

/-- Witness for C6 at a concrete input: dependee 10, matched by the
predicate, is gone from the returned mapping. -/
theorem C6_destructive_consumption_witness :
    (10, ({1} : Finset Nat)) ∉
      (CodeGen.find_gentargets (fun t => {t}) (fun d => decide (d = 10)) [1]
        [(10, {1})]).2 :=
  C6_destructive_consumption.1 (fun t => {t}) (fun d => decide (d = 10)) [1]
    [(10, {1})] 10 rfl {1}

namespace CodeGen

/-- A node of the dependency graph after splicing begins: either an original
target (identified by its number) or the synthetic target created by
`createtarget(lang, gentarget, ...)` for a (language, generation-source)
pair — one fresh node per pair, per the `createtarget` contract. -/
inductive Node where
  | orig : Nat → Node
  | synth : Nat → Nat → Node
deriving DecidableEq, Repr

/-- Association-list lookup, the `langtarget_by_gentarget[dep]` dictionary
access of `code_gen.py` line 135; a missing key is `none` (Python raises
`KeyError`). -/
def lookupA (d : Nat) : List (Nat × Node) → Option Node
  | [] => none
  | (k, v) :: rest => if k = d then some v else lookupA d rest

/-- The `langtarget_by_gentarget` dictionary after the first splicing loop
(`code_gen.py` lines 117-124): every target of the language's assigned set
(enumerated by `order`, the unspecified Python set iteration order) is
mapped to its freshly created synthetic node, before any rewiring starts. -/
def mkDict (lang : Nat) (order : List Nat) : List (Nat × Node) :=
  order.map (fun t => (t, Node.synth lang t))

/-- The dependency-rewiring inner loop for one gentarget (`code_gen.py`
lines 133-137): for each dependency `dep` of `gentarget`, if `dep` is a
generation-source node the edge goes to `langtarget_by_gentarget[dep]`
(raising, modelled as `none`, if `dep` has no entry), otherwise the edge
goes directly to `dep`.  Returns the `updatedependencies` edge list. -/
def rewireOne (isg : Nat → Bool) (dict : List (Nat × Node)) (lang g : Nat) :
    List Nat → Option (List (Node × Node))
  | [] => some []
  | dep :: rest =>
    match (if isg dep then (lookupA dep dict).map (fun lt => (Node.synth lang g, lt))
           else some (Node.synth lang g, Node.orig dep)),
          rewireOne isg dict lang g rest with
    | some e2, some es => some (e2 :: es)
    | _, _ => none

/-- The observable outcome of splicing one language: the synthetic nodes
created (each of which is labeled `synthetic` by `add_labels` at creation),
the forward product-map registrations `genmap.add(gentarget, ..,
[langtarget])`, the reverse registrations `synmap.add(langtarget, ..,
[gentarget])`, and the dependency edges added by `updatedependencies`.
Fields are finite sets because the graph's edge container and the product
maps are set-like and the Python iteration order over sets is
unspecified. -/
structure SpliceOut where
  synthetics : Finset Node
  genmapAdds : Finset (Nat × Node)
  synmapAdds : Finset (Node × Nat)
  edges : Finset (Node × Node)
deriving DecidableEq

/-- The second splicing loop (`code_gen.py` lines 129-137) over the entries
of `langtarget_by_gentarget`, with `dict` the full dictionary used for
lookups: register both product-map directions for each entry and rewire the
gentarget's dependencies onto its synthetic counterpart; a `KeyError` in
any lookup aborts the pass (`none`). -/
def spliceEntries (isg : Nat → Bool) (deps : Nat → List Nat) (dict : List (Nat × Node))
    (lang : Nat) : List (Nat × Node) → Option SpliceOut
  | [] => some ⟨∅, ∅, ∅, ∅⟩
  | (g, lt) :: rest =>
    match rewireOne isg dict lang g (deps g), spliceEntries isg deps dict lang rest with
    | some es, some out =>
      some ⟨insert lt out.synthetics, insert (g, lt) out.genmapAdds,
            insert (lt, g) out.synmapAdds, es.toFinset ∪ out.edges⟩
    | _, _ => none

/-- Splicing one language (`code_gen.py` lines 115-137): build the complete
per-language dictionary first (loop one), then run the rewiring loop over
its entries against that same dictionary. -/
def spliceLang (isg : Nat → Bool) (deps : Nat → List Nat) (lang : Nat)
    (order : List Nat) : Option SpliceOut :=
  spliceEntries isg deps (mkDict lang order) lang (mkDict lang order)

/-- Closed form of a successful one-language splice over the assigned set
`s`: one synthetic node per assigned target, both product-map directions,
and one edge per dependency of each assigned target — to the dependency's
synthetic counterpart when it is a generation source, to the original node
otherwise. -/
def spliceOutOf (isg : Nat → Bool) (deps : Nat → List Nat) (lang : Nat)
    (s : Finset Nat) : SpliceOut :=
  { synthetics := s.image (fun t => Node.synth lang t)
    genmapAdds := s.image (fun t => (t, Node.synth lang t))
    synmapAdds := s.image (fun t => (Node.synth lang t, t))
    edges := s.biUnion (fun g => (deps g).toFinset.image (fun dep =>
      (Node.synth lang g, if isg dep then Node.synth lang dep else Node.orig dep))) }

theorem lookupA_mkDict (lang d : Nat) (order : List Nat) :
    lookupA d (mkDict lang order) =
      if d ∈ order then some (Node.synth lang d) else none := by
  induction order with
  | nil => simp [lookupA, mkDict]
  | cons hd tl ih =>
    simp only [mkDict, List.map_cons, lookupA] at ih ⊢
    by_cases h : hd = d
    · subst h
      simp
    · rw [if_neg h, ih]
      have hne : d ≠ hd := fun hh => h hh.symm
      simp [List.mem_cons, hne]

theorem rewireOne_eq (isg : Nat → Bool) (lang g : Nat)
    (order : List Nat) (ds : List Nat) :
    rewireOne isg (mkDict lang order) lang g ds =
      if ∀ dep ∈ ds, isg dep = true → dep ∈ order
      then some (ds.map (fun dep =>
        (Node.synth lang g, if isg dep then Node.synth lang dep else Node.orig dep)))
      else none := by
  induction ds with
  | nil => simp [rewireOne]
  | cons dep rest ih =>
    rw [rewireOne, ih, lookupA_mkDict]
    by_cases hall : ∀ d ∈ rest, isg d = true → d ∈ order
    · rw [if_pos hall]
      by_cases hisg : isg dep = true
      · by_cases hmem : dep ∈ order
        · have hall2 : ∀ d ∈ dep :: rest, isg d = true → d ∈ order := by
            intro d hd
            rcases List.mem_cons.mp hd with h | h
            · subst h; intro _; exact hmem
            · exact hall d h
          rw [if_pos hall2]
          simp [hisg, hmem]
        · have hall2 : ¬ ∀ d ∈ dep :: rest, isg d = true → d ∈ order := by
            intro hc
            exact hmem (hc dep (List.mem_cons_self dep rest) hisg)
          rw [if_neg hall2]
          simp [hisg, hmem]
      · have hall2 : ∀ d ∈ dep :: rest, isg d = true → d ∈ order := by
          intro d hd
          rcases List.mem_cons.mp hd with h | h
          · subst h; intro hcon; exact absurd hcon hisg
          · exact hall d h
        rw [if_pos hall2]
        simp [hisg]
    · rw [if_neg hall]
      have hall2 : ¬ ∀ d ∈ dep :: rest, isg d = true → d ∈ order := by
        intro hc
        exact hall (fun d hd => hc d (List.mem_cons_of_mem _ hd))
      rw [if_neg hall2]
      by_cases hisg : isg dep = true
      · by_cases hmem : dep ∈ order <;> simp [hisg, hmem]
      · simp [hisg]

end CodeGen

namespace CodeGen

theorem toFinset_map_list {α β : Type} [DecidableEq α] [DecidableEq β] (f : α → β)
    (l : List α) : (l.map f).toFinset = l.toFinset.image f := by
  ext x
  simp

theorem spliceEntries_mkDict (isg : Nat → Bool) (deps : Nat → List Nat)
    (lang : Nat) (order l : List Nat) :
    spliceEntries isg deps (mkDict lang order) lang (mkDict lang l) =
      if ∀ g ∈ l, ∀ dep ∈ deps g, isg dep = true → dep ∈ order
      then some (spliceOutOf isg deps lang l.toFinset)
      else none := by
  induction l with
  | nil => simp [spliceEntries, mkDict, spliceOutOf]
  | cons g l2 ih =>
    have hcons : mkDict lang (g :: l2) = (g, Node.synth lang g) :: mkDict lang l2 := rfl
    rw [hcons, spliceEntries, rewireOne_eq isg lang g order (deps g), ih]
    by_cases hg : ∀ dep ∈ deps g, isg dep = true → dep ∈ order
    · rw [if_pos hg]
      by_cases hrest : ∀ g2 ∈ l2, ∀ dep ∈ deps g2, isg dep = true → dep ∈ order
      · rw [if_pos hrest]
        have hall : ∀ g2 ∈ g :: l2, ∀ dep ∈ deps g2, isg dep = true → dep ∈ order := by
          intro g2 hg2
          rcases List.mem_cons.mp hg2 with h | h
          · subst h; exact hg
          · exact hrest g2 h
        rw [if_pos hall]
        simp [spliceOutOf, List.toFinset_cons, Finset.image_insert, Finset.biUnion_insert,
          toFinset_map_list]
      · rw [if_neg hrest]
        have hall : ¬ ∀ g2 ∈ g :: l2, ∀ dep ∈ deps g2, isg dep = true → dep ∈ order := by
          intro hc
          exact hrest (fun g2 h => hc g2 (List.mem_cons_of_mem _ h))
        rw [if_neg hall]
    · rw [if_neg hg]
      have hall : ¬ ∀ g2 ∈ g :: l2, ∀ dep ∈ deps g2, isg dep = true → dep ∈ order := by
        intro hc
        exact hg (hc g (List.mem_cons_self g l2))
      rw [if_neg hall]

/-- Characterization of one-language splicing: it succeeds exactly when
every generation-source dependency of an assigned node is itself assigned
(present in the per-language dictionary), and then produces the closed-form
outcome `spliceOutOf` over the assigned set; a missing synthetic counterpart
makes the pass raise (`none`). -/
theorem spliceLang_eq (isg : Nat → Bool) (deps : Nat → List Nat) (lang : Nat)
    (order : List Nat) :
    spliceLang isg deps lang order =
      if ∀ g ∈ order, ∀ dep ∈ deps g, isg dep = true → dep ∈ order
      then some (spliceOutOf isg deps lang order.toFinset)
      else none :=
  spliceEntries_mkDict isg deps lang order order

end CodeGen

/-- C9: within one language's splicing pass every synthetic target is
created and entered into the per-language dictionary before any dependency
edge is rewired, so the outcome of the pass — including the rewiring of
same-language generation-source dependencies — does not depend on the order
in which the assigned nodes are processed: any two enumerations of the same
assigned set yield identical results (the same success or failure, and on
success the same synthetic-node, product-map and edge sets). -/
theorem C9_order_independence (isg : Nat → Bool) (deps : Nat → List Nat) (lang : Nat)
    (order1 order2 : List Nat) (h : order1.toFinset = order2.toFinset) :
    CodeGen.spliceLang isg deps lang order1 = CodeGen.spliceLang isg deps lang order2 := by
  have hmem : ∀ x : Nat, x ∈ order1 ↔ x ∈ order2 := by
    intro x
    rw [← List.mem_toFinset, ← List.mem_toFinset, h]
  rw [CodeGen.spliceLang_eq, CodeGen.spliceLang_eq, h]
  refine if_congr ?_ rfl rfl
  constructor
  · intro hh g hg dep hdep hisg
    exact (hmem dep).mp (hh g ((hmem g).mpr hg) dep hdep hisg)
  · intro hh g hg dep hdep hisg
    exact (hmem dep).mpr (hh g ((hmem g).mp hg) dep hdep hisg)

/-- Witness for C9 at a concrete input: two enumerations of the assigned set
`{1, 2}` give the same splicing outcome. -/
theorem C9_order_independence_witness :
    CodeGen.spliceLang (fun t => decide (t ≤ 2)) (fun t => if t = 1 then [2, 5] else []) 4
        [1, 2] =
      CodeGen.spliceLang (fun t => decide (t ≤ 2)) (fun t => if t = 1 then [2, 5] else []) 4
        [2, 1] :=
  C9_order_independence (fun t => decide (t ≤ 2)) (fun t => if t = 1 then [2, 5] else []) 4
    [1, 2] [2, 1] (by decide)

/-- Counterexample to C1 as stated: language 7's assigned set is just node 0
(enumerated as `[0]`); node 0 depends on node 1, which is a generation-source
node (`isg 1 = true`) but was not assigned to language 7.  The claim says the
edge should be kept pointing directly at node 1; the code instead evaluates
`langtarget_by_gentarget[1]`, which raises `KeyError` (modelled `none`) — the
splicing pass fails rather than producing any edge. -/
theorem C1_counterexample :
    CodeGen.spliceLang (fun t => decide (t ≤ 1)) (fun t => if t = 0 then [1] else []) 7 [0]
        = none
    ∧ (fun t : Nat => decide (t ≤ 1)) 1 = true := by
  constructor
  · decide
  · decide

/-- C1 amended: during one language's splicing pass, for every assigned
generation-source node `g` and dependency `dep` of `g`: if `dep` is a
generation-source node that was assigned (hence converted) for this same
language in this same pass, the synthetic node's edge is redirected to
`dep`'s synthetic counterpart; if `dep` is not a generation-source node the
edge is kept pointing directly at `dep`; but if `dep` is a generation-source
node not assigned to this language, the pass raises a `KeyError` (no edge is
produced and splicing fails). -/
theorem C1_rewiring (isg : Nat → Bool) (deps : Nat → List Nat) (lang : Nat)
    (order : List Nat) (g dep : Nat) (hg : g ∈ order) (hdep : dep ∈ deps g) :
    (isg dep = true → dep ∈ order → ∀ out, CodeGen.spliceLang isg deps lang order = some out →
      (CodeGen.Node.synth lang g, CodeGen.Node.synth lang dep) ∈ out.edges)
    ∧ (isg dep = false → ∀ out, CodeGen.spliceLang isg deps lang order = some out →
      (CodeGen.Node.synth lang g, CodeGen.Node.orig dep) ∈ out.edges)
    ∧ (isg dep = true → dep ∉ order → CodeGen.spliceLang isg deps lang order = none) := by
  refine ⟨?_, ?_, ?_⟩
  · intro hisg hmem out hout
    rw [CodeGen.spliceLang_eq] at hout
    by_cases hall : ∀ g2 ∈ order, ∀ d ∈ deps g2, isg d = true → d ∈ order
    · rw [if_pos hall] at hout
      injection hout with hout
      subst hout
      simp only [CodeGen.spliceOutOf]
      refine Finset.mem_biUnion.mpr ⟨g, List.mem_toFinset.mpr hg, ?_⟩
      refine Finset.mem_image.mpr ⟨dep, List.mem_toFinset.mpr hdep, ?_⟩
      simp [hisg]
    · rw [if_neg hall] at hout
      cases hout
  · intro hisg out hout
    rw [CodeGen.spliceLang_eq] at hout
    by_cases hall : ∀ g2 ∈ order, ∀ d ∈ deps g2, isg d = true → d ∈ order
    · rw [if_pos hall] at hout
      injection hout with hout
      subst hout
      simp only [CodeGen.spliceOutOf]
      refine Finset.mem_biUnion.mpr ⟨g, List.mem_toFinset.mpr hg, ?_⟩
      refine Finset.mem_image.mpr ⟨dep, List.mem_toFinset.mpr hdep, ?_⟩
      simp [hisg]
    · rw [if_neg hall] at hout
      cases hout
  · intro hisg hmem
    rw [CodeGen.spliceLang_eq]
    rw [if_neg]
    intro hc
    exact hmem (hc g hg dep hdep hisg)

/-- Witness for the amended C1 at a concrete input: nodes 0 and 1 are both
assigned; 0 depends on the generation-source node 1 and on the ordinary node
5, so the spliced edges go to `synth 4 1` and to `orig 5` respectively. -/
theorem C1_rewiring_witness :
    (CodeGen.Node.synth 4 0, CodeGen.Node.synth 4 1) ∈
      (CodeGen.spliceOutOf (fun t => decide (t ≤ 2)) (fun t => if t = 0 then [1, 5] else [])
        4 ([0, 1] : List Nat).toFinset).edges
    ∧ (CodeGen.Node.synth 4 0, CodeGen.Node.orig 5) ∈
      (CodeGen.spliceOutOf (fun t => decide (t ≤ 2)) (fun t => if t = 0 then [1, 5] else [])
        4 ([0, 1] : List Nat).toFinset).edges := by
  have h := C1_rewiring (fun t => decide (t ≤ 2)) (fun t => if t = 0 then [1, 5] else []) 4
    [0, 1] 0 1 (by decide) (by decide)
  have h2 := C1_rewiring (fun t => decide (t ≤ 2)) (fun t => if t = 0 then [1, 5] else []) 4
    [0, 1] 0 5 (by decide) (by decide)
  constructor
  · exact h.1 (by decide) (by decide) _ (CodeGen.spliceLang_eq _ _ _ _)
  · exact h2.2.1 (by decide) _ (CodeGen.spliceLang_eq _ _ _ _)

namespace CodeGen

/-- The splicing loop over all languages (`code_gen.py` lines 114-137): for
each `(lang, tgts)` of `gentargets_bylang` in order, if the assigned set is
non-empty, splice that language (enumerating the Python set `tgts` in some
order — here the sorted one; see `C9_order_independence` for why the choice
is immaterial); a `KeyError` in any language aborts the pass. -/
def spliceAll (isg : Nat → Bool) (deps : Nat → List Nat) :
    List (Nat × Finset Nat) → Option (List (Nat × SpliceOut))
  | [] => some []
  | (lang, tgts) :: rest =>
    if tgts.Nonempty then
      match spliceLang isg deps lang (tgts.sort (· ≤ ·)), spliceAll isg deps rest with
      | some out, some outs => some ((lang, out) :: outs)
      | _, _ => none
    else spliceAll isg deps rest

theorem spliceAll_mem (isg : Nat → Bool) (deps : Nat → List Nat)
    (bylang : List (Nat × Finset Nat)) (outs : List (Nat × SpliceOut))
    (hall : spliceAll isg deps bylang = some outs) (lang : Nat) (tgts : Finset Nat)
    (hmem : (lang, tgts) ∈ bylang) (hne : tgts.Nonempty) :
    (lang, spliceOutOf isg deps lang tgts) ∈ outs := by
  induction bylang generalizing outs with
  | nil => cases hmem
  | cons hd rest ih =>
    rcases hd with ⟨l0, t0⟩
    rw [spliceAll] at hall
    by_cases h0 : t0.Nonempty
    · rw [if_pos h0] at hall
      rcases hsl : spliceLang isg deps l0 (t0.sort (· ≤ ·)) with _ | out
      · rw [hsl] at hall
        cases hall
      · rcases hsa : spliceAll isg deps rest with _ | outs0
        · rw [hsl, hsa] at hall
          cases hall
        · rw [hsl, hsa] at hall
          injection hall with hall
          subst hall
          rcases List.mem_cons.mp hmem with h | h
          · injection h with h1 h2
            subst h1; subst h2
            have := spliceLang_eq isg deps lang (tgts.sort (· ≤ ·))
            rw [hsl, Finset.sort_toFinset] at this
            by_cases hc : ∀ g ∈ tgts.sort (· ≤ ·), ∀ dep ∈ deps g,
                isg dep = true → dep ∈ tgts.sort (· ≤ ·)
            · rw [if_pos hc] at this
              injection this with this
              rw [this]
              exact List.mem_cons_self _ _
            · rw [if_neg hc] at this
              cases this
          · exact List.mem_cons_of_mem _ (ih outs0 hsa h)
    · rw [if_neg h0] at hall
      rcases List.mem_cons.mp hmem with h | h
      · injection h with h1 h2
        subst h2
        exact absurd hne h0
      · exact ih outs hall h

end CodeGen

/-- The inputs of one `CodeGen.execute(targets)` run (`code_gen.py` lines
74-137): the target list, the subclass oracles `is_gentarget` (`isg`),
`genlangs()` (`caps`, an ordered language-to-predicate map), `is_forced`
(`forced`) and `genlang` (`gen`); the graph engine's dependee mapping
(`depMap`, from `context.dependents`), transitive-walk oracle (`walk`) and
per-target dependency lists (`deps`, `getdependencies`); the externally
computed invalid partitions (`vts`); and the cache configuration flags. -/
structure ExecIn where
  targets : List Nat
  isg : Nat → Bool
  caps : List (Nat × (Nat → Bool))
  forced : Nat → Bool
  depMap : List (Nat × Finset Nat)
  walk : Nat → Finset Nat
  deps : Nat → List Nat
  gen : CodeGen.GenFun
  vts : List CodeGen.VT
  cacheConfigured : Bool
  writeEnabled : Bool

/-- The observable outcome of one `execute` run: the per-language
assignments, the unconsumed dependee mapping, whether the unconsumed-targets
warning fired, the generation-loop event trace and exception, and the
splicing result (`none` if a generator raised — the exception propagates
before splicing — or if splicing itself raised a `KeyError`). -/
structure ExecOut where
  bylang : List (Nat × Finset Nat)
  leftover : List (Nat × Finset Nat)
  warned : Bool
  events : List CodeGen.Ev
  genErr : Option Nat
  splice : Option (List (Nat × CodeGen.SpliceOut))

/-- Shallow embedding of `CodeGen.execute` (`code_gen.py` lines 74-137):
compute `gentargets`, assign languages (consuming the dependee mapping),
warn if entries remain, run the invalidation-driven generation loop over the
invalid vts, and — unless a generator raised — splice every language's
assigned set into the graph. -/
def execute (i : ExecIn) : ExecOut :=
  let gentargets := i.targets.filter i.isg
  let a := CodeGen.assignLangs i.forced i.walk gentargets i.caps i.depMap
  let r := CodeGen.runVts i.cacheConfigured i.writeEnabled i.gen a.1 i.vts
  { bylang := a.1
    leftover := a.2
    warned := !a.2.isEmpty
    events := r.1
    genErr := r.2
    splice := if r.2 = none then CodeGen.spliceAll i.isg i.deps a.1 else none }

/-- C5: splicing runs for every language's full assigned set, regardless of
which nodes were invalid or valid: whenever the run reaches splicing and it
completes, every language with a non-empty assigned set contributes exactly
its closed-form splice — one synthetic node per assigned node (the
synthetics are the injective image of the assigned set, so their count
equals the assigned count; each is labeled synthetic at creation), with the
forward (source → synthetic) and reverse (synthetic → source) product-map
registrations; and the splicing result is the same for any two invalid
partitions under which no generator raises, since it depends only on the
assigned sets. -/
theorem C5_splicing_unconditional (i : ExecIn) :
    (∀ outs lang tgts, (execute i).splice = some outs →
      (lang, tgts) ∈ (execute i).bylang → tgts.Nonempty →
      ((lang, CodeGen.spliceOutOf i.isg i.deps lang tgts) ∈ outs
        ∧ (CodeGen.spliceOutOf i.isg i.deps lang tgts).synthetics =
            tgts.image (fun t => CodeGen.Node.synth lang t)
        ∧ (CodeGen.spliceOutOf i.isg i.deps lang tgts).synthetics.card = tgts.card
        ∧ (CodeGen.spliceOutOf i.isg i.deps lang tgts).genmapAdds =
            tgts.image (fun t => (t, CodeGen.Node.synth lang t))
        ∧ (CodeGen.spliceOutOf i.isg i.deps lang tgts).synmapAdds =
            tgts.image (fun t => (CodeGen.Node.synth lang t, t))))
    ∧ (∀ vts2, (execute i).genErr = none →
        (execute { i with vts := vts2 }).genErr = none →
        (execute { i with vts := vts2 }).splice = (execute i).splice) := by
  constructor
  · intro outs lang tgts hsp hmem hne
    have hsa : CodeGen.spliceAll i.isg i.deps
        (CodeGen.assignLangs i.forced i.walk (i.targets.filter i.isg) i.caps i.depMap).1 =
        some outs := by
      by_cases herr : (CodeGen.runVts i.cacheConfigured i.writeEnabled i.gen
          (CodeGen.assignLangs i.forced i.walk (i.targets.filter i.isg) i.caps
            i.depMap).1 i.vts).2 = none
      · have : (execute i).splice = CodeGen.spliceAll i.isg i.deps
            (CodeGen.assignLangs i.forced i.walk (i.targets.filter i.isg) i.caps
              i.depMap).1 := by
          show (if _ = none then _ else none) = _
          rw [if_pos herr]
        rw [← this]
        exact hsp
      · have : (execute i).splice = none := by
          show (if _ = none then _ else none) = none
          rw [if_neg herr]
        rw [this] at hsp
        cases hsp
    refine ⟨CodeGen.spliceAll_mem i.isg i.deps _ outs hsa lang tgts hmem hne,
      rfl, ?_, rfl, rfl⟩
    exact Finset.card_image_of_injective tgts (fun a b h => by injection h)
  · intro vts2 h1 h2
    have h1' : (CodeGen.runVts i.cacheConfigured i.writeEnabled i.gen
        (CodeGen.assignLangs i.forced i.walk (i.targets.filter i.isg) i.caps
          i.depMap).1 i.vts).2 = none := h1
    have h2' : (CodeGen.runVts i.cacheConfigured i.writeEnabled i.gen
        (CodeGen.assignLangs i.forced i.walk (i.targets.filter i.isg) i.caps
          i.depMap).1 vts2).2 = none := h2
    show (if _ = none then _ else none) = (if _ = none then _ else none)
    rw [if_pos h1', if_pos h2']

/-- A concrete one-language run used as a witness input: one generation
source (node 1), one forced language 0, no dependencies, no invalid vts. -/
def c5In : ExecIn :=
  { targets := [1]
    isg := fun _ => true
    caps := [(0, fun _ => true)]
    forced := fun _ => true
    depMap := []
    walk := fun t => {t}
    deps := fun _ => []
    gen := fun _ _ => Except.ok none
    vts := []
    cacheConfigured := false
    writeEnabled := false }

/-- Witness for C5 at the concrete input `c5In`: the splice output contains
language 0's closed-form splice of its assigned set `{1}`. -/
theorem C5_splicing_unconditional_witness :
    (0, CodeGen.spliceOutOf c5In.isg c5In.deps 0 ({1} : Finset Nat)) ∈
      [(0, CodeGen.spliceOutOf c5In.isg c5In.deps 0 ({1} : Finset Nat))] := by
  have hguard : ∀ g ∈ ([1] : List Nat), ∀ dep ∈ c5In.deps g,
      c5In.isg dep = true → dep ∈ ([1] : List Nat) := by
    intro g hg dep hdep
    exact absurd hdep (List.not_mem_nil dep)
  have hsl : CodeGen.spliceLang c5In.isg c5In.deps 0 [1] =
      some (CodeGen.spliceOutOf c5In.isg c5In.deps 0 {1}) := by
    rw [CodeGen.spliceLang_eq, if_pos hguard]
    simp
  have h0 : (execute c5In).splice =
      CodeGen.spliceAll c5In.isg c5In.deps [(0, ({1} : Finset Nat))] := rfl
  have hsp : (execute c5In).splice =
      some [(0, CodeGen.spliceOutOf c5In.isg c5In.deps 0 {1})] := by
    rw [h0]
    simp [CodeGen.spliceAll, hsl, Finset.insert_nonempty]
  exact ((C5_splicing_unconditional c5In).1 _ 0 {1} hsp (by decide) ⟨1, by decide⟩).1

/-- Under an all-forced capability map the assignment loop returns the
dependee mapping untouched. -/
theorem assignLangs_all_forced (forced : Nat → Bool) (walk : Nat → Finset Nat)
    (gentargets : List Nat) (caps : List (Nat × (Nat → Bool)))
    (m : List (Nat × Finset Nat)) (hf : ∀ p ∈ caps, forced p.1 = true) :
    (CodeGen.assignLangs forced walk gentargets caps m).2 = m := by
  induction caps generalizing m with
  | nil => rfl
  | cons hd tl ih =>
    rcases hd with ⟨lang, pred⟩
    have hlang : forced lang = true := hf (lang, pred) (List.mem_cons_self _ _)
    simp only [CodeGen.assignLangs, hlang, if_true]
    exact ih m (fun p hp => hf p (List.mem_cons_of_mem _ hp))

/-- C10: a forced language's assignment step leaves the dependee mapping
completely unchanged (it neither consumes nor alters entries, and assigns
the full in-scope generation-source list), so in a run where every language
is forced the final mapping equals the initial one and the
unconsumed-gen-targets warning fires exactly when the initial dependee
mapping is non-empty. -/
theorem C10_forced_skips_consumption :
    (∀ (forced : Nat → Bool) (walk : Nat → Finset Nat) (gentargets : List Nat)
        (lang : Nat) (pred : Nat → Bool) (rest : List (Nat × (Nat → Bool)))
        (m : List (Nat × Finset Nat)), forced lang = true →
        (CodeGen.assignLangs forced walk gentargets ((lang, pred) :: rest) m).2 =
          (CodeGen.assignLangs forced walk gentargets rest m).2
        ∧ (CodeGen.assignLangs forced walk gentargets ((lang, pred) :: rest) m).1 =
            (lang, gentargets.toFinset) ::
              (CodeGen.assignLangs forced walk gentargets rest m).1)
    ∧ (∀ i : ExecIn, (∀ p ∈ i.caps, i.forced p.1 = true) →
        (execute i).leftover = i.depMap
        ∧ ((execute i).warned = true ↔ i.depMap ≠ [])) := by
  constructor
  · intro forced walk gentargets lang pred rest m hlang
    constructor
    · simp [CodeGen.assignLangs, hlang]
    · simp [CodeGen.assignLangs, hlang]
  · intro i hf
    have hleft : (execute i).leftover = i.depMap :=
      assignLangs_all_forced i.forced i.walk (i.targets.filter i.isg) i.caps i.depMap hf
    refine ⟨hleft, ?_⟩
    have hw : (execute i).warned = !(execute i).leftover.isEmpty := rfl
    rw [hw, hleft]
    cases hd : i.depMap with
    | nil => simp
    | cons a l => simp

/-- A concrete all-forced run with a non-empty dependee mapping, used as a
witness input for C10. -/
def c10In : ExecIn :=
  { targets := [1]
    isg := fun _ => true
    caps := [(0, fun _ => true)]
    forced := fun _ => true
    depMap := [(3, {1})]
    walk := fun t => {t}
    deps := fun _ => []
    gen := fun _ _ => Except.ok none
    vts := []
    cacheConfigured := false
    writeEnabled := false }

/-- Witness for C10 at the concrete input `c10In`: the dependee mapping
survives an all-forced run untouched and the warning fires. -/
theorem C10_forced_skips_consumption_witness :
    (execute c10In).leftover = [(3, ({1} : Finset Nat))] ∧ (execute c10In).warned = true := by
  have h := C10_forced_skips_consumption.2 c10In (fun p _ => rfl)
  exact ⟨h.1, h.2.mpr (by decide)⟩
